import Mathlib

/-!
Verification of the geospatial route-processing core of the `roam` repository.

The Python sources are embedded shallowly:

* Python ints are `ℤ`/`ℕ`; Python float arithmetic is idealised as exact
  arithmetic, `ℚ` where the code only adds/multiplies/divides decimals
  (polyline coordinates, chart data) and `ℝ` where it calls transcendental
  functions (`haversine_distance`).
* Polyline text is the list of its character codes (`ord` values).
* Fallible code paths (Python exceptions such as `IndexError` or
  `ZeroDivisionError`) return `Option`, with `none` for the raised exception.
-/

namespace Roam

/-- Python `<<` on an arbitrary-precision int: `m << n = m * 2 ^ n` exactly. -/
def intShiftLeft (m : ℤ) (n : ℕ) : ℤ := m * 2 ^ n

/-- Python 3 `round` on an exact value: nearest integer, ties to even. -/
def pyRound (q : ℚ) : ℤ :=
  if q - ⌊q⌋ < 1/2 then ⌊q⌋
  else if 1/2 < q - ⌊q⌋ then ⌊q⌋ + 1
  else if ⌊q⌋ % 2 = 0 then ⌊q⌋ else ⌊q⌋ + 1

/-- The inner `while True` group loop of `decode_polyline` (utils.py 28-34):
reads successive 5-bit groups into `result` until a group's continuation bit
(0x20) is clear.  `none` models the `IndexError` Python raises when the
string ends mid-coordinate. -/
def decodeVarint : List ℕ → ℕ → ℤ → Option (ℤ × List ℕ)
  | [], _, _ => none
  | c :: rest, shift, result =>
    let byte : ℤ := (c : ℤ) - 63
    let result' : ℤ := Int.lor result (intShiftLeft (Int.land byte 0x1F) shift)
    if 0x20 ≤ byte then decodeVarint rest (shift + 5) result' else some (result', rest)

/-- Undoing the zigzag (utils.py 36-39): odd raw value maps to
`~(result >> 1)`, even to `result >> 1`. -/
def unzigzag (result : ℤ) : ℤ :=
  if Int.land result 1 ≠ 0 then Int.not (result >>> (1 : ℕ)) else result >>> (1 : ℕ)

theorem decodeVarint_length :
    ∀ (s : List ℕ) (shift : ℕ) (r v : ℤ) (rest : List ℕ),
      decodeVarint s shift r = some (v, rest) → rest.length < s.length := by
  intro s
  induction s with
  | nil => intro _ _ _ _ h; simp [decodeVarint] at h
  | cons c cs ih =>
    intro shift r v rest h
    rw [decodeVarint] at h
    by_cases hc : (0x20 : ℤ) ≤ (c : ℤ) - 63
    · rw [if_pos hc] at h
      have := ih _ _ _ _ h
      simpa using Nat.lt_trans this (Nat.lt_succ_self _)
    · rw [if_neg hc] at h
      simp only [Option.some.injEq, Prod.mk.injEq] at h
      simp [← h.2]

/-- The outer `while index < len` loop of `decode_polyline` (utils.py 24-44):
decodes a latitude delta then a longitude delta, accumulates them and appends
the point `(lat / 100000, lng / 100000)`. -/
def decodeLoop : List ℕ → ℤ → ℤ → Option (List (ℚ × ℚ))
  | [], _, _ => some []
  | c :: cs, lat, lng =>
    match h1 : decodeVarint (c :: cs) 0 0 with
    | none => none
    | some (r1, s1) =>
      match h2 : decodeVarint s1 0 0 with
      | none => none
      | some (r2, s2) =>
        let lat' := lat + unzigzag r1
        let lng' := lng + unzigzag r2
        match decodeLoop s2 lat' lng' with
        | none => none
        | some pts => some (((lat' : ℚ) / 100000, (lng' : ℚ) / 100000) :: pts)
  termination_by s _ _ => s.length
  decreasing_by
    exact Nat.lt_trans (decodeVarint_length _ _ _ _ _ h2) (decodeVarint_length _ _ _ _ _ h1)

/-- utils.py `decode_polyline`: from the list of character codes of the
polyline string to the coordinate list. -/
def decode_polyline (polyline_str : List ℕ) : Option (List (ℚ × ℚ)) :=
  decodeLoop polyline_str 0 0

/-- The chunk loop of `encode_value` (utils.py 54-59) over the zigzagged
value, which is nonnegative: emits 5-bit groups with the continuation bit on
all but the last, each offset by 63. -/
def encodeChunks (value : ℕ) : List ℕ :=
  if 0x20 ≤ value then ((0x20 ||| (value &&& 0x1F)) + 63) :: encodeChunks (value >>> 5)
  else [value + 63]
  termination_by value
  decreasing_by
    simp only [Nat.shiftRight_eq_div_pow]
    exact Nat.div_lt_self (by omega) (by norm_num)

/-- utils.py `encode_value`: zigzag (line 53) then the chunk loop.  The
zigzagged Python int is nonnegative, so `Int.toNat` loses nothing. -/
def encode_value (value : ℤ) : List ℕ :=
  encodeChunks (if value < 0 then Int.not (intShiftLeft value 1) else intShiftLeft value 1).toNat

/-- The main loop of `encode_polyline` (utils.py 61-73): fixed-point deltas
from the previous point, each coordinate `int(round(x * 100000))`. -/
def encodeLoop : List (ℚ × ℚ) → ℤ → ℤ → List ℕ
  | [], _, _ => []
  | point :: rest, prev_lat, prev_lng =>
    let lat := pyRound (point.1 * 100000)
    let lng := pyRound (point.2 * 100000)
    encode_value (lat - prev_lat) ++ encode_value (lng - prev_lng) ++ encodeLoop rest lat lng

/-- utils.py `encode_polyline`. -/
def encode_polyline (points : List (ℚ × ℚ)) : List ℕ := encodeLoop points 0 0

/-- A coordinate is quantized to 1e-5 degrees: an exact integer multiple. -/
def Quantized (q : ℚ) : Prop := ∃ n : ℤ, q = (n : ℚ) / 100000

theorem int_land_coe (a b : ℕ) : Int.land (a : ℤ) (b : ℤ) = ((a &&& b : ℕ) : ℤ) := rfl

theorem int_land31_coe (a : ℕ) : Int.land (a : ℤ) (0x1F : ℤ) = ((a &&& 0x1F : ℕ) : ℤ) := rfl

theorem int_land1_coe (a : ℕ) : Int.land (a : ℤ) (1 : ℤ) = ((a &&& 1 : ℕ) : ℤ) := rfl

theorem int_lor_coe (a b : ℕ) : Int.lor (a : ℤ) (b : ℤ) = ((a ||| b : ℕ) : ℤ) := rfl

theorem int_shiftRight_coe (a n : ℕ) : ((a : ℤ) >>> n) = ((a >>> n : ℕ) : ℤ) := rfl

theorem int_not_coe (a : ℕ) : Int.not (a : ℤ) = -(a : ℤ) - 1 := by
  show Int.not (Int.ofNat a) = _
  rw [Int.not]
  simp [Int.negSucc_eq]
  ring

theorem intShiftLeft_coe (a n : ℕ) : intShiftLeft (a : ℤ) n = ((a <<< n : ℕ) : ℤ) := by
  simp only [intShiftLeft, Nat.shiftLeft_eq]
  push_cast
  ring

theorem and31_eq_mod (n : ℕ) : n &&& 0x1F = n % 32 := by
  have h := Nat.and_pow_two_sub_one_eq_mod n 5
  norm_num at h
  exact h

theorem lor32_small : ∀ y < 32, (0x20 ||| y) = 32 + y := by decide

theorem add32_and31 : ∀ y < 32, ((32 + y) &&& 0x1F) = y := by decide

/-- Recomposition of a value split into its low 5 bits and the rest. -/
theorem shiftRecompose (n s : ℕ) :
    ((n % 32) <<< s) ||| ((n >>> 5) <<< (s + 5)) = n <<< s := by
  apply Nat.eq_of_testBit_eq
  intro i
  have h32 : (32 : ℕ) = 2 ^ 5 := by norm_num
  simp only [Nat.testBit_lor, Nat.testBit_shiftLeft, Nat.testBit_shiftRight, h32,
    Nat.testBit_mod_two_pow, ge_iff_le]
  by_cases h1 : s ≤ i
  · by_cases h2 : s + 5 ≤ i
    · have h5 : 5 + (i - (s + 5)) = i - s := by omega
      simp [h1, h2, h5, (by omega : ¬ i - s < 5)]
    · have h5 : i - s < 5 := by omega
      simp [h1, h2, h5]
  · have h2 : ¬ s + 5 ≤ i := by omega
    simp [h1, h2]

/-- Reading back one `encode_value` chunk stream: the group loop of
`decode_polyline` reconstructs exactly the zigzagged magnitude. -/
theorem decodeVarint_encodeChunks :
    ∀ (n shift r : ℕ) (rest : List ℕ), r < 2 ^ shift →
      decodeVarint (encodeChunks n ++ rest) shift (r : ℤ) =
        some (((r ||| (n <<< shift) : ℕ) : ℤ), rest) := by
  intro n
  induction n using Nat.strong_induction_on with
  | _ n ih =>
    intro shift r rest hr
    rw [encodeChunks]
    by_cases h32 : 0x20 ≤ n
    · rw [if_pos h32]
      have hlt : n % 32 < 32 := Nat.mod_lt _ (by norm_num)
      simp only [List.cons_append, decodeVarint]
      have hb : (((0x20 ||| (n &&& 0x1F)) + 63 : ℕ) : ℤ) - 63 = ((32 + n % 32 : ℕ) : ℤ) := by
        rw [and31_eq_mod, lor32_small _ hlt]
        push_cast
        ring
      rw [hb]
      rw [if_pos (by exact_mod_cast Nat.le_add_right 32 (n % 32))]
      rw [int_land31_coe, add32_and31 _ hlt, intShiftLeft_coe, int_lor_coe]
      have hrec : n >>> 5 < n := by
        rw [Nat.shiftRight_eq_div_pow]
        exact Nat.div_lt_self (by omega) (by norm_num)
      have hr' : r ||| ((n % 32) <<< shift) < 2 ^ (shift + 5) := by
        apply Nat.or_lt_two_pow
        · exact lt_of_lt_of_le hr (Nat.pow_le_pow_right (by norm_num) (by omega))
        · rw [Nat.shiftLeft_eq, pow_add]
          calc (n % 32) * 2 ^ shift < 32 * 2 ^ shift :=
                mul_lt_mul_of_pos_right hlt (Nat.pos_pow_of_pos _ (by norm_num))
            _ = 2 ^ shift * 2 ^ 5 := by ring
      simp only [List.append_eq]
      rw [ih _ hrec _ _ rest hr']
      congr 2
      rw [Nat.lor_assoc, shiftRecompose]
    · rw [if_neg h32]
      simp only [List.cons_append, decodeVarint]
      have hb : ((n + 63 : ℕ) : ℤ) - 63 = (n : ℤ) := by push_cast; ring
      rw [hb]
      rw [if_neg (by exact_mod_cast h32)]
      rw [int_land31_coe, and31_eq_mod, Nat.mod_eq_of_lt (by omega), intShiftLeft_coe,
        int_lor_coe]
      simp

theorem int_not_eq (x : ℤ) : Int.not x = -x - 1 := by
  cases x with
  | ofNat a =>
    show Int.negSucc a = -(a : ℤ) - 1
    rw [Int.negSucc_eq]
    ring
  | negSucc a =>
    show (a : ℤ) = -(Int.negSucc a) - 1
    rw [Int.negSucc_eq]
    ring

theorem and1_eq_mod (n : ℕ) : n &&& 1 = n % 2 := Nat.and_one_is_mod n

theorem zig_nonneg (v : ℤ) :
    0 ≤ (if v < 0 then Int.not (intShiftLeft v 1) else intShiftLeft v 1) := by
  by_cases h : v < 0
  · rw [if_pos h, int_not_eq]
    simp only [intShiftLeft]
    nlinarith
  · rw [if_neg h]
    simp only [intShiftLeft]
    nlinarith [not_lt.mp h]

theorem unzigzag_zig (v : ℤ) :
    unzigzag (if v < 0 then Int.not (intShiftLeft v 1) else intShiftLeft v 1) = v := by
  by_cases h : v < 0
  · rw [if_pos h, int_not_eq]
    set a : ℕ := (-v).toNat with ha
    have hv : v = -(a : ℤ) := by
      rw [ha, Int.toNat_of_nonneg (by omega)]
      ring
    have ha1 : 1 ≤ a := by omega
    have hz : -(intShiftLeft v 1) - 1 = ((2 * a - 1 : ℕ) : ℤ) := by
      simp only [intShiftLeft]
      rw [hv]
      push_cast [Nat.cast_sub (by omega : 1 ≤ 2 * a)]
      ring
    rw [hz]
    rw [unzigzag, int_land1_coe, and1_eq_mod]
    rw [if_pos (by exact_mod_cast (by omega : ¬ ((2 * a - 1) % 2 : ℕ) = 0))]
    rw [int_shiftRight_coe, Nat.shiftRight_eq_div_pow]
    have hdiv : (2 * a - 1) / 2 ^ 1 = a - 1 := by omega
    rw [hdiv, int_not_eq]
    rw [hv]
    push_cast [Nat.cast_sub ha1]
    ring
  · rw [if_neg h]
    set a : ℕ := v.toNat with ha
    have hv : v = (a : ℤ) := by rw [ha, Int.toNat_of_nonneg (by omega)]
    have hz : intShiftLeft v 1 = ((2 * a : ℕ) : ℤ) := by
      simp only [intShiftLeft]
      rw [hv]
      push_cast
      ring
    rw [hz]
    rw [unzigzag, int_land1_coe, and1_eq_mod]
    rw [if_neg (by simp [Nat.mul_mod_right])]
    rw [int_shiftRight_coe, Nat.shiftRight_eq_div_pow]
    have hdiv : (2 * a) / 2 ^ 1 = a := by omega
    rw [hdiv, hv]

theorem encodeChunks_ne_nil (n : ℕ) : encodeChunks n ≠ [] := by
  rw [encodeChunks]
  split <;> simp

theorem encode_value_ne_nil (v : ℤ) : encode_value v ≠ [] := encodeChunks_ne_nil _

/-- Reading back a full `encode_value` emission from the head of a stream. -/
theorem decodeVarint_encode_value (v : ℤ) (rest : List ℕ) :
    decodeVarint (encode_value v ++ rest) 0 0 =
      some ((if v < 0 then Int.not (intShiftLeft v 1) else intShiftLeft v 1), rest) := by
  unfold encode_value
  have hznn := zig_nonneg v
  have h := decodeVarint_encodeChunks
    (if v < 0 then Int.not (intShiftLeft v 1) else intShiftLeft v 1).toNat 0 0 rest
    (by norm_num)
  simp only [Nat.cast_zero, Nat.zero_or, Nat.shiftLeft_zero] at h
  rw [h, Int.toNat_of_nonneg hznn]

theorem pyRound_intCast (n : ℤ) : pyRound ((n : ℚ)) = n := by
  unfold pyRound
  rw [Int.floor_intCast]
  norm_num

theorem quant_mul (q : ℚ) (n : ℤ) (h : q = (n : ℚ) / 100000) : q * 100000 = (n : ℚ) := by
  rw [h]
  field_simp

/-- Round-trip of the two polyline loops on quantized input. -/
theorem decodeLoop_encodeLoop :
    ∀ (pts : List (ℚ × ℚ)), (∀ p ∈ pts, Quantized p.1 ∧ Quantized p.2) →
      ∀ (plat plng : ℤ), decodeLoop (encodeLoop pts plat plng) plat plng = some pts := by
  intro pts
  induction pts with
  | nil =>
    intro _ plat plng
    rw [encodeLoop, decodeLoop]
  | cons p ps ih =>
    intro hq plat plng
    obtain ⟨⟨nlat, hlat⟩, ⟨nlng, hlng⟩⟩ := hq p (List.mem_cons_self _ _)
    have hround_lat : pyRound (p.1 * 100000) = nlat := by
      rw [quant_mul _ _ hlat, pyRound_intCast]
    have hround_lng : pyRound (p.2 * 100000) = nlng := by
      rw [quant_mul _ _ hlng, pyRound_intCast]
    rw [encodeLoop]
    simp only [hround_lat, hround_lng]
    rw [List.append_assoc]
    have h1 := decodeVarint_encode_value (nlat - plat)
      (encode_value (nlng - plng) ++ encodeLoop ps nlat nlng)
    have h2 := decodeVarint_encode_value (nlng - plng) (encodeLoop ps nlat nlng)
    have hih := ih (fun q hq' => hq q (List.mem_cons_of_mem _ hq')) nlat nlng
    obtain ⟨c, cs, hcons⟩ :=
      List.exists_cons_of_ne_nil (encode_value_ne_nil (nlat - plat))
    have hcancel1 : plat + (nlat - plat) = nlat := by ring
    have hcancel2 : plng + (nlng - plng) = nlng := by ring
    rw [decodeLoop.eq_def]
    split
    · rename_i heq
      exact absurd (List.append_eq_nil.mp heq).1 (encode_value_ne_nil _)
    · rename_i c' cs' heq
      split
      · rename_i heq2
        rw [← heq, h1] at heq2
        simp at heq2
      · rename_i r1 s1 heq2
        rw [← heq, h1] at heq2
        simp only [Option.some.injEq, Prod.mk.injEq] at heq2
        obtain ⟨hr1, hs1⟩ := heq2
        split
        · rename_i heq3
          rw [← hs1, h2] at heq3
          simp at heq3
        · rename_i r2 s2 heq3
          rw [← hs1, h2] at heq3
          simp only [Option.some.injEq, Prod.mk.injEq] at heq3
          obtain ⟨hr2, hs2⟩ := heq3
          dsimp only
          split
          · rename_i heq4
            rw [← hs2, ← hr1, unzigzag_zig, ← hr2, unzigzag_zig, hcancel1, hcancel2,
              hih] at heq4
            simp at heq4
          · rename_i pts' heq4
            rw [← hs2, ← hr1, unzigzag_zig, ← hr2, unzigzag_zig, hcancel1, hcancel2,
              hih] at heq4
            simp only [Option.some.injEq] at heq4
            rw [← hr1, unzigzag_zig, ← hr2, unzigzag_zig, hcancel1, hcancel2, ← heq4,
              ← hlat, ← hlng]

/-- C1: for a polyline whose coordinates are integer multiples of 1e-5
degrees, decoding the encoding returns exactly the same coordinates. -/
theorem C1_decode_encode_roundtrip (points : List (ℚ × ℚ))
    (hq : ∀ p ∈ points, Quantized p.1 ∧ Quantized p.2) :
    decode_polyline (encode_polyline points) = some points :=
  decodeLoop_encodeLoop points hq 0 0

/-- C1 witness: the round trip at (38.5, -120.2), (40.7, -120.95). -/
theorem C1_decode_encode_roundtrip_witness :
    (∀ p ∈ [((385/10 : ℚ), (-1202/10 : ℚ)), ((407/10 : ℚ), (-12095/100 : ℚ))],
        Quantized p.1 ∧ Quantized p.2) ∧
      decode_polyline (encode_polyline
        [((385/10 : ℚ), (-1202/10 : ℚ)), ((407/10 : ℚ), (-12095/100 : ℚ))]) =
        some [((385/10 : ℚ), (-1202/10 : ℚ)), ((407/10 : ℚ), (-12095/100 : ℚ))] := by
  have hq : ∀ p ∈ [((385/10 : ℚ), (-1202/10 : ℚ)), ((407/10 : ℚ), (-12095/100 : ℚ))],
      Quantized p.1 ∧ Quantized p.2 := by
    intro p hp
    simp only [List.mem_cons, List.mem_singleton] at hp
    rcases hp with h | h | h
    · rw [h]
      exact ⟨⟨3850000, by norm_num⟩, ⟨-12020000, by norm_num⟩⟩
    · rw [h]
      exact ⟨⟨4070000, by norm_num⟩, ⟨-12095000, by norm_num⟩⟩
    · cases h
  exact ⟨hq, C1_decode_encode_roundtrip _ hq⟩

/-- Python `math.radians`: degrees to radians. -/
noncomputable def radians (x : ℝ) : ℝ := x * (Real.pi / 180)

/-- utils.py `haversine_distance` (lines 76-91), float arithmetic idealised
over `ℝ`: great-circle distance in miles, Earth radius 3956. -/
noncomputable def haversine_distance (lat1 lon1 lat2 lon2 : ℝ) : ℝ :=
  let lon1 := radians lon1
  let lat1 := radians lat1
  let lon2 := radians lon2
  let lat2 := radians lat2
  let dlon := lon2 - lon1
  let dlat := lat2 - lat1
  let a := Real.sin (dlat / 2) ^ 2 + Real.cos lat1 * Real.cos lat2 * Real.sin (dlon / 2) ^ 2
  let c := 2 * Real.arcsin (Real.sqrt a)
  let r : ℝ := 3956
  c * r

theorem haversine_nonneg (lat1 lon1 lat2 lon2 : ℝ) :
    0 ≤ haversine_distance lat1 lon1 lat2 lon2 := by
  unfold haversine_distance
  dsimp only
  have h1 : 0 ≤ Real.arcsin (Real.sqrt (Real.sin ((radians lat2 - radians lat1) / 2) ^ 2 +
      Real.cos (radians lat1) * Real.cos (radians lat2) *
        Real.sin ((radians lon2 - radians lon1) / 2) ^ 2)) :=
    Real.arcsin_nonneg.mpr (Real.sqrt_nonneg _)
  nlinarith

/-- The exact value of the code's distance for one degree of longitude at the
equator: `3956 * π / 180` miles. -/
theorem haversine_equator_one_degree :
    haversine_distance 0 0 0 1 = 3956 * (Real.pi / 180) := by
  have hpi := Real.pi_pos
  unfold haversine_distance radians
  dsimp only
  rw [zero_mul, one_mul]
  norm_num [Real.sin_zero, Real.cos_zero]
  have h2 : Real.sqrt (Real.sin (Real.pi / 180 / 2) ^ 2) = Real.sin (Real.pi / 180 / 2) := by
    rw [Real.sqrt_sq_eq_abs, abs_of_nonneg]
    apply Real.sin_nonneg_of_nonneg_of_le_pi
    · nlinarith
    · nlinarith
  rw [h2]
  rw [Real.arcsin_sin (by nlinarith) (by nlinarith)]
  ring

/-- C7 counterexample: the code's `distanceMiles(0,0,0,1)` is more than 0.12
miles below 69.17, so it is not approximately 69.17. -/
theorem C7_counterexample :
    (69.17 : ℝ) - haversine_distance 0 0 0 1 > 0.12 := by
  have h1 := Real.pi_lt_3141593
  rw [haversine_equator_one_degree]
  nlinarith

/-- C7 (amended): the haversine distance with Earth radius 3956 between
(0,0) and (0,1) is approximately 69.05 miles: strictly between 69.04 and
69.05. -/
theorem C7_equator_degree_value :
    69.04 < haversine_distance 0 0 0 1 ∧ haversine_distance 0 0 0 1 < 69.05 := by
  have h1 := Real.pi_gt_3141592
  have h2 := Real.pi_lt_3141593
  rw [haversine_equator_one_degree]
  constructor
  · nlinarith
  · nlinarith

/-- utils.py `get_nearest_point_on_polyline` (lines 94-109): exhaustive scan
over all vertices, keeping the strictly smallest distance.  `⊤ : EReal`
models the initial `float("inf")` and `-1` the initial `best_index`; the pair
is returned unchanged when the polyline is empty. -/
noncomputable def get_nearest_point_on_polyline (point_lat point_lng : ℝ)
    (polyline_points : List (ℝ × ℝ)) : EReal × ℤ :=
  polyline_points.enum.foldl
    (fun acc ip =>
      let d := haversine_distance point_lat point_lng ip.2.1 ip.2.2
      if (d : EReal) < acc.1 then ((d : EReal), (ip.1 : ℤ)) else acc)
    (⊤, -1)

/-- utils.py `calculate_cumulative_distances` (lines 112-126): running totals
over `range(1, len(polyline_points))`, starting from `[0.0]`. -/
noncomputable def calculate_cumulative_distances (polyline_points : List (ℝ × ℝ)) : List ℝ :=
  ((List.range' 1 (polyline_points.length - 1)).foldl
    (fun acc i =>
      let p1 := polyline_points.getD (i - 1) (0, 0)
      let p2 := polyline_points.getD i (0, 0)
      let d := haversine_distance p1.1 p1.2 p2.1 p2.2
      (acc.1 ++ [acc.2 + d], acc.2 + d))
    ([0], 0)).1

/-- C2 counterexample: on a zero-vertex polyline neither operation signals an
error: the projection returns the sentinel pair (infinity, -1) and the
cumulative build returns the one-entry table [0]. -/
theorem C2_counterexample :
    get_nearest_point_on_polyline 0 0 [] = ((⊤ : EReal), -1) ∧
      calculate_cumulative_distances [] = [0] :=
  ⟨rfl, rfl⟩

/-- C2 (amended): on a zero-vertex polyline both operations return normally
rather than failing: `get_nearest_point_on_polyline` returns
(`float("inf")`, -1) and `calculate_cumulative_distances` returns `[0.0]`. -/
theorem C2_empty_input_returns_sentinels (point_lat point_lng : ℝ) :
    get_nearest_point_on_polyline point_lat point_lng [] = ((⊤ : EReal), -1) ∧
      calculate_cumulative_distances [] = [0] :=
  ⟨rfl, rfl⟩

/-- Invariant of the `get_nearest_point_on_polyline` scan, for any starting
state `(m, b)` and enumeration offset `k`. -/
theorem nearest_foldl_spec (qlat qlng : ℝ) :
    ∀ (pts : List (ℝ × ℝ)) (k : ℕ) (m : EReal) (b : ℤ),
      (((pts.enumFrom k).foldl
        (fun acc ip =>
          let d := haversine_distance qlat qlng ip.2.1 ip.2.2
          if (d : EReal) < acc.1 then ((d : EReal), (ip.1 : ℤ)) else acc)
        (m, b)).1 ≤ m) ∧
      (∀ i, i < pts.length →
        ((pts.enumFrom k).foldl
          (fun acc ip =>
            let d := haversine_distance qlat qlng ip.2.1 ip.2.2
            if (d : EReal) < acc.1 then ((d : EReal), (ip.1 : ℤ)) else acc)
          (m, b)).1 ≤
          ((haversine_distance qlat qlng (pts.getD i (0, 0)).1 (pts.getD i (0, 0)).2 : ℝ) :
            EReal)) ∧
      (((pts.enumFrom k).foldl
          (fun acc ip =>
            let d := haversine_distance qlat qlng ip.2.1 ip.2.2
            if (d : EReal) < acc.1 then ((d : EReal), (ip.1 : ℤ)) else acc)
          (m, b)) = (m, b) ∨
        ∃ i, i < pts.length ∧
          ((pts.enumFrom k).foldl
            (fun acc ip =>
              let d := haversine_distance qlat qlng ip.2.1 ip.2.2
              if (d : EReal) < acc.1 then ((d : EReal), (ip.1 : ℤ)) else acc)
            (m, b)) =
            (((haversine_distance qlat qlng (pts.getD i (0, 0)).1 (pts.getD i (0, 0)).2 : ℝ) :
                EReal), ((k + i : ℕ) : ℤ)) ∧
          ((haversine_distance qlat qlng (pts.getD i (0, 0)).1 (pts.getD i (0, 0)).2 : ℝ) :
              EReal) < m ∧
          ∀ j, j < i →
            ((haversine_distance qlat qlng (pts.getD i (0, 0)).1 (pts.getD i (0, 0)).2 : ℝ) :
                EReal) <
              ((haversine_distance qlat qlng (pts.getD j (0, 0)).1 (pts.getD j (0, 0)).2 : ℝ) :
                EReal)) := by
  intro pts
  induction pts with
  | nil =>
    intro k m b
    refine ⟨le_refl _, ?_, Or.inl rfl⟩
    intro i hi
    simp at hi
  | cons p ps ih =>
    intro k m b
    rw [List.enumFrom_cons, List.foldl_cons]
    by_cases hlt :
        ((haversine_distance qlat qlng p.1 p.2 : ℝ) : EReal) < m
    · dsimp only
      rw [if_pos hlt]
      obtain ⟨ih1, ih2, ih3⟩ := ih (k + 1)
        ((haversine_distance qlat qlng p.1 p.2 : ℝ) : EReal) ((k : ℤ))
      refine ⟨le_trans ih1 (le_of_lt hlt), ?_, ?_⟩
      · intro i hi
        cases i with
        | zero => simpa using ih1
        | succ i =>
          rw [List.getD_cons_succ]
          exact ih2 i (by simpa using hi)
      · rcases ih3 with h | ⟨i, hi, heq, hlt2, hfirst⟩
        · right
          refine ⟨0, by simp, ?_, by simpa using hlt, ?_⟩
          · rw [h]
            simp
          · intro j hj
            exact absurd hj (Nat.not_lt_zero j)
        · right
          refine ⟨i + 1, by simpa using hi, ?_, ?_, ?_⟩
          · rw [heq, List.getD_cons_succ]
            congr 2
            omega
          · rw [List.getD_cons_succ]
            exact lt_trans hlt2 hlt
          · intro j hj
            cases j with
            | zero =>
              rw [List.getD_cons_succ, List.getD_cons_zero]
              exact hlt2
            | succ j =>
              rw [List.getD_cons_succ, List.getD_cons_succ]
              exact hfirst j (by omega)
    · dsimp only
      rw [if_neg hlt]
      obtain ⟨ih1, ih2, ih3⟩ := ih (k + 1) m b
      refine ⟨ih1, ?_, ?_⟩
      · intro i hi
        cases i with
        | zero =>
          rw [List.getD_cons_zero]
          exact le_trans ih1 (not_lt.mp hlt)
        | succ i =>
          rw [List.getD_cons_succ]
          exact ih2 i (by simpa using hi)
      · rcases ih3 with h | ⟨i, hi, heq, hlt2, hfirst⟩
        · exact Or.inl h
        · right
          refine ⟨i + 1, by simpa using hi, ?_, ?_, ?_⟩
          · rw [heq, List.getD_cons_succ]
            congr 2
            omega
          · rw [List.getD_cons_succ]
            exact hlt2
          · intro j hj
            cases j with
            | zero =>
              rw [List.getD_cons_succ, List.getD_cons_zero]
              exact lt_of_lt_of_le hlt2 (not_lt.mp hlt)
            | succ j =>
              rw [List.getD_cons_succ, List.getD_cons_succ]
              exact hfirst j (by omega)

/-- C3: on a non-empty polyline the scan returns (as a finite real distance
and an index in `[0, N-1]`) the distance to its nearest vertex: it is ≤ the
haversine distance to every vertex, equals the distance to the returned
vertex, and every earlier vertex is strictly farther (ties go to the
earliest index). -/
theorem C3_nearest_vertex (point_lat point_lng : ℝ) (pts : List (ℝ × ℝ)) (hne : pts ≠ []) :
    ∃ (d : ℝ) (i : ℕ),
      get_nearest_point_on_polyline point_lat point_lng pts = ((d : EReal), ((i : ℕ) : ℤ)) ∧
      i < pts.length ∧
      d = haversine_distance point_lat point_lng (pts.getD i (0, 0)).1 (pts.getD i (0, 0)).2 ∧
      (∀ j, j < pts.length →
        d ≤ haversine_distance point_lat point_lng (pts.getD j (0, 0)).1 (pts.getD j (0, 0)).2) ∧
      (∀ j, j < i →
        haversine_distance point_lat point_lng (pts.getD j (0, 0)).1 (pts.getD j (0, 0)).2 > d) := by
  obtain ⟨spec1, spec2, spec3⟩ := nearest_foldl_spec point_lat point_lng pts 0 ⊤ (-1)
  have hunfold : get_nearest_point_on_polyline point_lat point_lng pts =
      (pts.enumFrom 0).foldl
        (fun acc ip =>
          let d := haversine_distance point_lat point_lng ip.2.1 ip.2.2
          if (d : EReal) < acc.1 then ((d : EReal), (ip.1 : ℤ)) else acc)
        (⊤, -1) := by
    rw [get_nearest_point_on_polyline, List.enum_eq_enumFrom]
  have h0 : 0 < pts.length := List.length_pos.mpr hne
  rcases spec3 with h | ⟨i, hi, heq, _, hfirst⟩
  · exfalso
    have h2 := spec2 0 h0
    rw [h] at h2
    exact absurd (top_le_iff.mp h2) (EReal.coe_ne_top _)
  · refine ⟨haversine_distance point_lat point_lng (pts.getD i (0, 0)).1 (pts.getD i (0, 0)).2,
      i, ?_, hi, rfl, ?_, ?_⟩
    · rw [hunfold, heq]
      norm_num
    · intro j hj
      have := spec2 j hj
      rw [heq] at this
      exact EReal.coe_le_coe_iff.mp this
    · intro j hj
      exact EReal.coe_lt_coe_iff.mp (hfirst j hj)

/-- C3 witness: the one-vertex polyline [(0,0)] with query point (0,0). -/
theorem C3_nearest_vertex_witness :
    (([((0 : ℝ), (0 : ℝ))] : List (ℝ × ℝ)) ≠ []) ∧
    (∃ (d : ℝ) (i : ℕ),
      get_nearest_point_on_polyline 0 0 [((0 : ℝ), (0 : ℝ))] = ((d : EReal), ((i : ℕ) : ℤ)) ∧
      i < ([((0 : ℝ), (0 : ℝ))] : List (ℝ × ℝ)).length ∧
      d = haversine_distance 0 0 (([((0 : ℝ), (0 : ℝ))] : List (ℝ × ℝ)).getD i (0, 0)).1
            (([((0 : ℝ), (0 : ℝ))] : List (ℝ × ℝ)).getD i (0, 0)).2 ∧
      (∀ j, j < ([((0 : ℝ), (0 : ℝ))] : List (ℝ × ℝ)).length →
        d ≤ haversine_distance 0 0 (([((0 : ℝ), (0 : ℝ))] : List (ℝ × ℝ)).getD j (0, 0)).1
              (([((0 : ℝ), (0 : ℝ))] : List (ℝ × ℝ)).getD j (0, 0)).2) ∧
      (∀ j, j < i →
        haversine_distance 0 0 (([((0 : ℝ), (0 : ℝ))] : List (ℝ × ℝ)).getD j (0, 0)).1
            (([((0 : ℝ), (0 : ℝ))] : List (ℝ × ℝ)).getD j (0, 0)).2 > d)) :=
  ⟨by simp, C3_nearest_vertex 0 0 [((0 : ℝ), (0 : ℝ))] (by simp)⟩

/-- The distance added at loop index `i` of `calculate_cumulative_distances`:
between vertices `i-1` and `i`. -/
noncomputable def stepDist (pts : List (ℝ × ℝ)) (i : ℕ) : ℝ :=
  haversine_distance (pts.getD (i - 1) (0, 0)).1 (pts.getD (i - 1) (0, 0)).2
    (pts.getD i (0, 0)).1 (pts.getD i (0, 0)).2

theorem stepDist_nonneg (pts : List (ℝ × ℝ)) (i : ℕ) : 0 ≤ stepDist pts i := by
  unfold stepDist
  exact haversine_nonneg _ _ _ _

/-- Closed form of the entries the cumulative loop appends from loop index
`s` on, starting at running total `t`. -/
noncomputable def cumTail (pts : List (ℝ × ℝ)) : ℕ → ℕ → ℝ → List ℝ
  | 0, _, _ => []
  | n + 1, s, t => (t + stepDist pts s) :: cumTail pts n (s + 1) (t + stepDist pts s)

/-- The running total after the loop. -/
noncomputable def cumLast (pts : List (ℝ × ℝ)) : ℕ → ℕ → ℝ → ℝ
  | 0, _, t => t
  | n + 1, s, t => cumLast pts n (s + 1) (t + stepDist pts s)

theorem cum_foldl (pts : List (ℝ × ℝ)) :
    ∀ (n s : ℕ) (acc : List ℝ) (t : ℝ),
      (List.range' s n).foldl
        (fun acc i =>
          let p1 := pts.getD (i - 1) (0, 0)
          let p2 := pts.getD i (0, 0)
          let d := haversine_distance p1.1 p1.2 p2.1 p2.2
          (acc.1 ++ [acc.2 + d], acc.2 + d)) (acc, t) =
      (acc ++ cumTail pts n s t, cumLast pts n s t) := by
  intro n
  induction n with
  | zero =>
    intro s acc t
    simp [cumTail, cumLast]
  | succ n ih =>
    intro s acc t
    rw [List.range'_succ, List.foldl_cons]
    dsimp only
    rw [ih]
    rw [cumTail, cumLast]
    have hsd : haversine_distance (pts.getD (s - 1) (0, 0)).1 (pts.getD (s - 1) (0, 0)).2
        (pts.getD s (0, 0)).1 (pts.getD s (0, 0)).2 = stepDist pts s := rfl
    rw [hsd]
    simp [List.append_assoc]

theorem calc_cum_eq (pts : List (ℝ × ℝ)) :
    calculate_cumulative_distances pts = 0 :: cumTail pts (pts.length - 1) 1 0 := by
  unfold calculate_cumulative_distances
  rw [cum_foldl]
  rfl

theorem cumTail_length (pts : List (ℝ × ℝ)) :
    ∀ (n s : ℕ) (t : ℝ), (cumTail pts n s t).length = n := by
  intro n
  induction n with
  | zero =>
    intro s t
    rw [cumTail]
    rfl
  | succ n ih =>
    intro s t
    rw [cumTail]
    simp [ih]

theorem cumTail_chain (pts : List (ℝ × ℝ)) :
    ∀ (n s : ℕ) (t : ℝ), List.Chain' (· ≤ ·) (t :: cumTail pts n s t) := by
  intro n
  induction n with
  | zero =>
    intro s t
    rw [cumTail]
    exact List.chain'_singleton t
  | succ n ih =>
    intro s t
    rw [cumTail, List.chain'_cons]
    exact ⟨le_add_of_nonneg_right (stepDist_nonneg pts s), ih (s + 1) (t + stepDist pts s)⟩

theorem cumTail_getD (pts : List (ℝ × ℝ)) :
    ∀ (n s : ℕ) (t : ℝ) (i : ℕ), i < n →
      (t :: cumTail pts n s t).getD (i + 1) 0 =
        (t :: cumTail pts n s t).getD i 0 + stepDist pts (s + i) := by
  intro n
  induction n with
  | zero =>
    intro s t i hi
    exact absurd hi (Nat.not_lt_zero i)
  | succ n ih =>
    intro s t i hi
    rw [cumTail]
    cases i with
    | zero => simp
    | succ i =>
      have hstep := ih (s + 1) (t + stepDist pts s) i (by omega)
      have hidx : s + 1 + i = s + (i + 1) := by omega
      rw [List.getD_cons_succ, hstep, List.getD_cons_succ, hidx]

/-- C8 counterexample: on the empty polyline the cumulative table is `[0]`,
whose length 1 differs from the polyline's length 0. -/
theorem C8_counterexample :
    calculate_cumulative_distances ([] : List (ℝ × ℝ)) = [0] ∧
      (calculate_cumulative_distances ([] : List (ℝ × ℝ))).length ≠
        ([] : List (ℝ × ℝ)).length := by
  have h1 : calculate_cumulative_distances ([] : List (ℝ × ℝ)) = [0] := rfl
  refine ⟨h1, ?_⟩
  rw [h1]
  simp

/-- C8 (amended): the cumulative table starts at 0, each entry adds the
haversine distance between the adjacent vertices, the table is monotonically
non-decreasing, and its length is `max 1 N`: the polyline's length for a
non-empty polyline, but 1 (not 0) for the empty one. -/
theorem C8_cumulative_table (pts : List (ℝ × ℝ)) :
    (calculate_cumulative_distances pts).length = max 1 pts.length ∧
    (calculate_cumulative_distances pts).head? = some 0 ∧
    (∀ i, i + 1 < (calculate_cumulative_distances pts).length →
      (calculate_cumulative_distances pts).getD (i + 1) 0 =
        (calculate_cumulative_distances pts).getD i 0 +
          haversine_distance (pts.getD i (0, 0)).1 (pts.getD i (0, 0)).2
            (pts.getD (i + 1) (0, 0)).1 (pts.getD (i + 1) (0, 0)).2) ∧
    List.Chain' (· ≤ ·) (calculate_cumulative_distances pts) := by
  rw [calc_cum_eq]
  refine ⟨?_, rfl, ?_, cumTail_chain pts (pts.length - 1) 1 0⟩
  · simp [cumTail_length]
    omega
  · intro i hi
    have hi' : i < pts.length - 1 := by
      simp [cumTail_length] at hi
      omega
    rw [cumTail_getD pts (pts.length - 1) 1 0 i hi']
    have hsd : stepDist pts (1 + i) =
        haversine_distance (pts.getD i (0, 0)).1 (pts.getD i (0, 0)).2
          (pts.getD (i + 1) (0, 0)).1 (pts.getD (i + 1) (0, 0)).2 := by
      unfold stepDist
      have h1 : 1 + i - 1 = i := by omega
      have h2 : 1 + i = i + 1 := by omega
      rw [h1, h2]
    rw [hsd]

/-- A forecast entry, exposing `entry["interval"]["startTime"]` when the
nested dicts carry it; all other payload is irrelevant to the matcher. -/
structure ForecastEntry where
  startTime : Option String
  deriving DecidableEq

/-- The timestamp of an entry as the scan sees it: `none` when the field is
missing, the empty (falsy) string, or `datetime.fromisoformat` fails.  The
parse function (Python's `datetime.fromisoformat` composed with the
`replace("Z", "+00:00")`) is abstracted as `parse`, returning epoch seconds. -/
def usableTime (parse : String → Option ℤ) (e : ForecastEntry) : Option ℤ :=
  match e.startTime with
  | none => none
  | some s => if s = "" then none else parse s

/-- One iteration of the `find_forecast_for_time` loop (cli.py 118-131).
The state is `none` while `closest is None` and `min_diff == inf`. -/
def findStep (parse : String → Option ℤ) (target_time : ℤ)
    (acc : Option (ForecastEntry × ℤ)) (entry : ForecastEntry) :
    Option (ForecastEntry × ℤ) :=
  match entry.startTime with
  | none => acc
  | some s =>
    if s = "" then acc
    else
      match parse s with
      | none => acc
      | some f_time =>
        let diff := |f_time - target_time|
        match acc with
        | none => some (entry, diff)
        | some (closest, min_diff) =>
          if diff < min_diff then some (entry, diff) else some (closest, min_diff)

/-- cli.py `find_forecast_for_time` (lines 107-133), taking the
`forecastHours` list directly. -/
def find_forecast_for_time (parse : String → Option ℤ) (hourly : List ForecastEntry)
    (target_time : ℤ) : Option ForecastEntry :=
  if hourly.isEmpty then none
  else (hourly.foldl (findStep parse target_time) none).map Prod.fst

theorem findStep_unusable (parse : String → Option ℤ) (target_time : ℤ)
    (acc : Option (ForecastEntry × ℤ)) (e : ForecastEntry)
    (h : usableTime parse e = none) : findStep parse target_time acc e = acc := by
  unfold findStep
  unfold usableTime at h
  match he : e.startTime with
  | none => rfl
  | some s =>
    rw [he] at h
    dsimp only at h ⊢
    by_cases hs : s = ""
    · rw [if_pos hs]
    · rw [if_neg hs] at h ⊢
      rw [h]

theorem findStep_usable (parse : String → Option ℤ) (target_time : ℤ)
    (acc : Option (ForecastEntry × ℤ)) (e : ForecastEntry) (u : ℤ)
    (h : usableTime parse e = some u) :
    findStep parse target_time acc e =
      match acc with
      | none => some (e, |u - target_time|)
      | some (closest, min_diff) =>
        if |u - target_time| < min_diff then some (e, |u - target_time|)
        else some (closest, min_diff) := by
  unfold findStep
  unfold usableTime at h
  match he : e.startTime with
  | none =>
    rw [he] at h
    dsimp only at h
    exact absurd h (by simp)
  | some s =>
    rw [he] at h
    dsimp only at h ⊢
    by_cases hs : s = ""
    · rw [if_pos hs] at h
      exact absurd h (by simp)
    · rw [if_neg hs] at h ⊢
      rw [h]

/-- Invariant of the `find_forecast_for_time` scan over any suffix `l` and
accumulator `acc`. -/
theorem find_foldl_spec (parse : String → Option ℤ) (target_time : ℤ) :
    ∀ (l : List ForecastEntry) (acc : Option (ForecastEntry × ℤ)),
      (∀ p, acc = some p → ∃ q, l.foldl (findStep parse target_time) acc = some q ∧
        q.2 ≤ p.2) ∧
      (∀ e ∈ l, ∀ u, usableTime parse e = some u →
        ∃ q, l.foldl (findStep parse target_time) acc = some q ∧ q.2 ≤ |u - target_time|) ∧
      (l.foldl (findStep parse target_time) acc = acc ∨
        ∃ i, i < l.length ∧ ∃ t, usableTime parse (l.getD i ⟨none⟩) = some t ∧
          l.foldl (findStep parse target_time) acc =
            some (l.getD i ⟨none⟩, |t - target_time|) ∧
          (∀ p, acc = some p → |t - target_time| < p.2) ∧
          (∀ j, j < i → ∀ u, usableTime parse (l.getD j ⟨none⟩) = some u →
            |t - target_time| < |u - target_time|)) := by
  intro l
  induction l with
  | nil =>
    intro acc
    refine ⟨?_, ?_, Or.inl rfl⟩
    · intro p hp
      exact ⟨p, by simp [hp], le_refl _⟩
    · intro e he
      simp at he
  | cons e rest ih =>
    intro acc
    rw [List.foldl_cons]
    match hu : usableTime parse e with
    | none =>
      rw [findStep_unusable _ _ _ _ hu]
      obtain ⟨ih1, ih2, ih3⟩ := ih acc
      refine ⟨ih1, ?_, ?_⟩
      · intro e' he' u hu'
        rcases List.mem_cons.mp he' with h | h
        · rw [h] at hu'
          rw [hu'] at hu
          cases hu
        · exact ih2 e' h u hu'
      · rcases ih3 with h | ⟨i, hi, t, ht, heq, hacc, hfirst⟩
        · exact Or.inl h
        · right
          refine ⟨i + 1, by simpa using hi, t, by simpa using ht, by simpa using heq,
            hacc, ?_⟩
          intro j hj u hu'
          cases j with
          | zero =>
            rw [List.getD_cons_zero] at hu'
            rw [hu'] at hu
            cases hu
          | succ j =>
            rw [List.getD_cons_succ] at hu'
            exact hfirst j (by omega) u hu'
    | some u =>
      rw [findStep_usable _ _ _ _ _ hu]
      match hacc : acc with
      | none =>
        obtain ⟨ih1, ih2, ih3⟩ := ih (some (e, |u - target_time|))
        refine ⟨?_, ?_, ?_⟩
        · intro p hp
          cases hp
        · intro e' he' u' hu'
          rcases List.mem_cons.mp he' with h | h
          · obtain ⟨q, hq1, hq2⟩ := ih1 (e, |u - target_time|) rfl
            refine ⟨q, hq1, ?_⟩
            rw [h] at hu'
            rw [hu'] at hu
            cases hu
            exact hq2
          · exact ih2 e' h u' hu'
        · rcases ih3 with h | ⟨i, hi, t, ht, heq, haccc, hfirst⟩
          · right
            refine ⟨0, by simp, u, by simpa using hu, by simpa using h, ?_, ?_⟩
            · intro p hp
              cases hp
            · intro j hj
              exact absurd hj (Nat.not_lt_zero j)
          · right
            have hlt : |t - target_time| < |u - target_time| :=
              haccc (e, |u - target_time|) rfl
            refine ⟨i + 1, by simpa using hi, t, by simpa using ht, by simpa using heq,
              ?_, ?_⟩
            · intro p hp
              cases hp
            · intro j hj u' hu'
              cases j with
              | zero =>
                rw [List.getD_cons_zero] at hu'
                rw [hu'] at hu
                cases hu
                exact hlt
              | succ j =>
                rw [List.getD_cons_succ] at hu'
                exact hfirst j (by omega) u' hu'
      | some cm =>
        by_cases hcmp : |u - target_time| < cm.2
        · have hstep : (match some cm with
              | none => some (e, |u - target_time|)
              | some (closest, min_diff) =>
                if |u - target_time| < min_diff then some (e, |u - target_time|)
                else some (closest, min_diff)) = some (e, |u - target_time|) := by
            cases cm
            simp only []
            rw [if_pos hcmp]
          rw [hstep]
          obtain ⟨ih1, ih2, ih3⟩ := ih (some (e, |u - target_time|))
          refine ⟨?_, ?_, ?_⟩
          · intro p hp
            cases hp
            obtain ⟨q, hq1, hq2⟩ := ih1 (e, |u - target_time|) rfl
            exact ⟨q, hq1, le_trans hq2 (le_of_lt hcmp)⟩
          · intro e' he' u' hu'
            rcases List.mem_cons.mp he' with h | h
            · obtain ⟨q, hq1, hq2⟩ := ih1 (e, |u - target_time|) rfl
              refine ⟨q, hq1, ?_⟩
              rw [h] at hu'
              rw [hu'] at hu
              cases hu
              exact hq2
            · exact ih2 e' h u' hu'
          · rcases ih3 with h | ⟨i, hi, t, ht, heq, haccc, hfirst⟩
            · right
              refine ⟨0, by simp, u, by simpa using hu, by simpa using h, ?_, ?_⟩
              · intro p hp
                cases hp
                exact hcmp
              · intro j hj
                exact absurd hj (Nat.not_lt_zero j)
            · right
              have hlt : |t - target_time| < |u - target_time| :=
                haccc (e, |u - target_time|) rfl
              refine ⟨i + 1, by simpa using hi, t, by simpa using ht, by simpa using heq,
                ?_, ?_⟩
              · intro p hp
                cases hp
                exact lt_trans hlt hcmp
              · intro j hj u' hu'
                cases j with
                | zero =>
                  rw [List.getD_cons_zero] at hu'
                  rw [hu'] at hu
                  cases hu
                  exact hlt
                | succ j =>
                  rw [List.getD_cons_succ] at hu'
                  exact hfirst j (by omega) u' hu'
        · have hstep : (match some cm with
              | none => some (e, |u - target_time|)
              | some (closest, min_diff) =>
                if |u - target_time| < min_diff then some (e, |u - target_time|)
                else some (closest, min_diff)) = some cm := by
            cases cm
            simp only []
            rw [if_neg hcmp]
          rw [hstep]
          obtain ⟨ih1, ih2, ih3⟩ := ih (some cm)
          refine ⟨?_, ?_, ?_⟩
          · intro p hp
            cases hp
            exact ih1 cm rfl
          · intro e' he' u' hu'
            rcases List.mem_cons.mp he' with h | h
            · obtain ⟨q, hq1, hq2⟩ := ih1 cm rfl
              refine ⟨q, hq1, ?_⟩
              rw [h] at hu'
              rw [hu'] at hu
              cases hu
              exact le_trans hq2 (not_lt.mp hcmp)
            · exact ih2 e' h u' hu'
          · rcases ih3 with h | ⟨i, hi, t, ht, heq, haccc, hfirst⟩
            · exact Or.inl h
            · right
              have hlt : |t - target_time| < cm.2 := haccc cm rfl
              refine ⟨i + 1, by simpa using hi, t, by simpa using ht, by simpa using heq,
                ?_, ?_⟩
              · intro p hp
                cases hp
                exact hlt
              · intro j hj u' hu'
                cases j with
                | zero =>
                  rw [List.getD_cons_zero] at hu'
                  rw [hu'] at hu
                  cases hu
                  exact lt_of_lt_of_le hlt (not_lt.mp hcmp)
                | succ j =>
                  rw [List.getD_cons_succ] at hu'
                  exact hfirst j (by omega) u' hu'

/-- C4: `find_forecast_for_time` returns absent exactly when no entry has a
usable timestamp (in particular when the list is empty); any returned entry
minimises the absolute time difference to the target over all usable entries
and is the earliest entry attaining that minimum (strict `<` during the
scan); and concretely, entries at 10:00, 11:00 and 12:00 UTC with target
11:40 UTC yield the 12:00 entry. -/
theorem C4_find_forecast (parse : String → Option ℤ) (hourly : List ForecastEntry)
    (target_time : ℤ) :
    (find_forecast_for_time parse hourly target_time = none ↔
      ∀ e ∈ hourly, usableTime parse e = none) ∧
    (∀ e, find_forecast_for_time parse hourly target_time = some e →
      ∃ i, i < hourly.length ∧ hourly.getD i ⟨none⟩ = e ∧
        ∃ t, usableTime parse (hourly.getD i ⟨none⟩) = some t ∧
        (∀ j, j < hourly.length → ∀ u, usableTime parse (hourly.getD j ⟨none⟩) = some u →
          |t - target_time| ≤ |u - target_time|) ∧
        (∀ j, j < i → ∀ u, usableTime parse (hourly.getD j ⟨none⟩) = some u →
          |t - target_time| < |u - target_time|)) ∧
    (∀ e1 e2 e3, usableTime parse e1 = some 36000 → usableTime parse e2 = some 39600 →
      usableTime parse e3 = some 43200 →
      find_forecast_for_time parse [e1, e2, e3] 42000 = some e3) := by
  refine ⟨?_, ?_, ?_⟩
  · unfold find_forecast_for_time
    by_cases hemp : hourly.isEmpty
    · rw [if_pos hemp]
      have hnil : hourly = [] := List.isEmpty_iff.mp hemp
      subst hnil
      simp
    · rw [if_neg hemp]
      constructor
      · intro hnone e he
        match hus : usableTime parse e with
        | none => rfl
        | some u =>
          exfalso
          obtain ⟨q, hq, _⟩ :=
            (find_foldl_spec parse target_time hourly none).2.1 e he u hus
          rw [hq] at hnone
          simp at hnone
      · intro hall
        rcases (find_foldl_spec parse target_time hourly none).2.2 with
          h | ⟨i, hi, t, ht, _, _, _⟩
        · rw [h]
          rfl
        · exfalso
          have hmem : hourly.getD i ⟨none⟩ ∈ hourly := by
            rw [List.getD_eq_get _ _ hi]
            exact List.get_mem _ _ _
          rw [hall _ hmem] at ht
          cases ht
  · intro e hfind
    unfold find_forecast_for_time at hfind
    by_cases hemp : hourly.isEmpty
    · rw [if_pos hemp] at hfind
      cases hfind
    · rw [if_neg hemp] at hfind
      obtain ⟨pair, hpair, hfst⟩ := Option.map_eq_some'.mp hfind
      rcases (find_foldl_spec parse target_time hourly none).2.2 with
        h | ⟨i, hi, t, ht, heq, _, hfirst⟩
      · rw [h] at hpair
        cases hpair
      · rw [heq] at hpair
        obtain hpe : hourly.getD i ⟨none⟩ = e := by
          rw [← hfst]
          rw [Option.some.injEq] at hpair
          rw [← hpair]
      -- the returned pair is (entry i, its diff)
        refine ⟨i, hi, hpe, t, ht, ?_, hfirst⟩
        intro j hj u hu
        have hmem : hourly.getD j ⟨none⟩ ∈ hourly := by
          rw [List.getD_eq_get _ _ hj]
          exact List.get_mem _ _ _
        obtain ⟨q, hq, hqle⟩ :=
          (find_foldl_spec parse target_time hourly none).2.1 _ hmem u hu
        rw [heq, Option.some.injEq] at hq
        rw [← hq] at hqle
        exact hqle
  · intro e1 e2 e3 h1 h2 h3
    unfold find_forecast_for_time
    rw [if_neg (by simp)]
    rw [List.foldl_cons, List.foldl_cons, List.foldl_cons, List.foldl_nil]
    rw [findStep_usable parse 42000 none e1 36000 h1]
    dsimp only
    rw [findStep_usable parse 42000 (some (e1, |(36000 : ℤ) - 42000|)) e2 39600 h2]
    dsimp only
    rw [if_pos (by decide)]
    rw [findStep_usable parse 42000 (some (e2, |(39600 : ℤ) - 42000|)) e3 43200 h3]
    dsimp only
    rw [if_pos (by decide)]
    rfl

/-- C5: an entry with a missing or unparseable timestamp is skipped and the
scan continues: removing it from anywhere in the list does not change the
result of `find_forecast_for_time`. -/
theorem C5_bad_timestamp_skipped (parse : String → Option ℤ) (l1 l2 : List ForecastEntry)
    (e : ForecastEntry) (target_time : ℤ) (hbad : usableTime parse e = none) :
    find_forecast_for_time parse (l1 ++ e :: l2) target_time =
      find_forecast_for_time parse (l1 ++ l2) target_time := by
  unfold find_forecast_for_time
  rw [if_neg (by simp)]
  by_cases hrest : l1 ++ l2 = []
  · obtain ⟨h1, h2⟩ := List.append_eq_nil.mp hrest
    subst h1
    subst h2
    rw [if_pos (by simp)]
    simp only [List.nil_append, List.foldl_cons, List.foldl_nil]
    rw [findStep_unusable _ _ _ _ hbad]
    rfl
  · rw [if_neg (by simpa [List.isEmpty_iff] using hrest)]
    congr 1
    rw [List.foldl_append, List.foldl_append, List.foldl_cons]
    rw [findStep_unusable _ _ _ _ hbad]

/-- A concrete timestamp parser used to instantiate the matcher theorems. -/
def parseEx : String → Option ℤ := fun s =>
  if s = "T10" then some 36000
  else if s = "T11" then some 39600
  else if s = "T12" then some 43200
  else none

/-- C5 witness: a middle entry with an unparseable timestamp is skipped. -/
theorem C5_bad_timestamp_skipped_witness :
    find_forecast_for_time parseEx
        ([ForecastEntry.mk (some "T10")] ++ ForecastEntry.mk (some "bogus") ::
          [ForecastEntry.mk (some "T12")]) 42000 =
      find_forecast_for_time parseEx
        ([ForecastEntry.mk (some "T10")] ++ [ForecastEntry.mk (some "T12")]) 42000 :=
  C5_bad_timestamp_skipped parseEx [ForecastEntry.mk (some "T10")]
    [ForecastEntry.mk (some "T12")] (ForecastEntry.mk (some "bogus")) 42000 (by decide)

/-- A latitude/longitude pair (a `latLng` dict carrying both coordinates). -/
structure LatLng where
  latitude : ℝ
  longitude : ℝ

/-- A route step as the sampler consumes it: `staticDuration` already parsed
to seconds by `get_seconds` (cli.py 72-76, `"0s"` default giving 0), and the
`endLocation.latLng` dict when present and non-empty (truthy). -/
structure RouteStep where
  staticDuration : ℤ
  endLocation : Option LatLng

/-- A route leg: `startLocation.latLng` / `endLocation.latLng` when present,
and the ordered steps. -/
structure Leg where
  startLocation : Option LatLng
  endLocation : Option LatLng
  steps : List RouteStep

/-- cli.py `format_duration` (lines 60-69) on the always-parseable string
`str(seconds) + "s"`: the `int(...)` round-trips to the same value, so the
function is modelled directly on the seconds. -/
def format_duration (total_seconds : ℤ) : String :=
  let hours := total_seconds / 3600
  let minutes := total_seconds % 3600 / 60
  if hours > 0 then toString hours ++ "h " ++ toString minutes ++ "m"
  else toString minutes ++ "m"

/-- One step of the sampling walk (cli.py 414-430).  The state is
`(current_elapsed, last_sample_time, samples)`; the sample condition is
checked before the step's duration is added. -/
noncomputable def stepF (acc : ℤ × ℤ × List (ℤ × LatLng × String)) (step : RouteStep) :
    ℤ × ℤ × List (ℤ × LatLng × String) :=
  let acc3 :=
    if acc.1 > acc.2.1 + 3600 then
      match step.endLocation with
      | some p =>
        (acc.1, acc.1,
          acc.2.2 ++ [(acc.1, p, "En Route (+" ++ format_duration acc.1 ++ ")")])
      | none => acc
    else acc
  (acc3.1 + step.staticDuration, acc3.2)

/-- The walk over one leg's steps (cli.py 413-414). -/
noncomputable def legF (acc : ℤ × ℤ × List (ℤ × LatLng × String)) (leg : Leg) :
    ℤ × ℤ × List (ℤ × LatLng × String) :=
  leg.steps.foldl stepF acc

/-- The weather-sampling block of the `route` command (cli.py 393-445),
producing the list of `(time_offset, point, description)` samples.
`SAMPLE_INTERVAL = 3600` and `last_sample_time` starts at `-3600`.  The start
sample is emitted only when the first leg's start latitude exists and is
truthy (nonzero); `none` models the `IndexError` of `legs[-1]` on an empty
leg list. -/
noncomputable def route_weather_samples (legs : List Leg) (total_dur : ℤ) :
    Option (List (ℤ × LatLng × String)) :=
  let start_loc : Option LatLng :=
    match legs with
    | [] => none
    | leg :: _ => leg.startLocation
  let samples0 : List (ℤ × LatLng × String) :=
    match start_loc with
    | some p => if p.latitude ≠ 0 then [(0, p, "Start")] else []
    | none => []
  let walk := legs.foldl legF ((0 : ℤ), (-3600 : ℤ), samples0)
  match legs.getLast? with
  | none => none
  | some lastLeg =>
    some (match lastLeg.endLocation with
      | some p =>
        if total_dur > walk.2.1 + 3600 / 2 then
          walk.2.2 ++ [(total_dur, p, "Destination")]
        else walk.2.2
      | none => walk.2.2)

theorem stepF_prefix (st : RouteStep) (c l : ℤ) (ss : List (ℤ × LatLng × String)) :
    ∃ t, (stepF (c, l, ss) st).2.2 = ss ++ t := by
  unfold stepF
  dsimp only
  by_cases h : c > l + 3600
  · rw [if_pos h]
    match st.endLocation with
    | some p => exact ⟨[(c, p, "En Route (+" ++ format_duration c ++ ")")], rfl⟩
    | none => exact ⟨[], by simp⟩
  · rw [if_neg h]
    exact ⟨[], by simp⟩

theorem foldl_stepF_prefix :
    ∀ (steps : List RouteStep) (c l : ℤ) (ss : List (ℤ × LatLng × String)),
      ∃ t, (steps.foldl stepF (c, l, ss)).2.2 = ss ++ t := by
  intro steps
  induction steps with
  | nil =>
    intro c l ss
    exact ⟨[], by simp⟩
  | cons st rest ih =>
    intro c l ss
    rw [List.foldl_cons]
    obtain ⟨t1, ht1⟩ := stepF_prefix st c l ss
    obtain ⟨t2, ht2⟩ := ih (stepF (c, l, ss) st).1 (stepF (c, l, ss) st).2.1
      (stepF (c, l, ss) st).2.2
    refine ⟨t1 ++ t2, ?_⟩
    have heta : ((stepF (c, l, ss) st).1, (stepF (c, l, ss) st).2.1,
        (stepF (c, l, ss) st).2.2) = stepF (c, l, ss) st := rfl
    rw [heta] at ht2
    rw [ht2, ht1, List.append_assoc]

theorem foldl_legF_prefix :
    ∀ (legs : List Leg) (c l : ℤ) (ss : List (ℤ × LatLng × String)),
      ∃ t, (legs.foldl legF (c, l, ss)).2.2 = ss ++ t := by
  intro legs
  induction legs with
  | nil =>
    intro c l ss
    exact ⟨[], by simp⟩
  | cons leg rest ih =>
    intro c l ss
    rw [List.foldl_cons]
    obtain ⟨t1, ht1⟩ := foldl_stepF_prefix leg.steps c l ss
    obtain ⟨t2, ht2⟩ := ih (legF (c, l, ss) leg).1 (legF (c, l, ss) leg).2.1
      (legF (c, l, ss) leg).2.2
    refine ⟨t1 ++ t2, ?_⟩
    have heta : ((legF (c, l, ss) leg).1, (legF (c, l, ss) leg).2.1,
        (legF (c, l, ss) leg).2.2) = legF (c, l, ss) leg := rfl
    rw [heta] at ht2
    rw [ht2]
    have ht1' : (legF (c, l, ss) leg).2.2 = ss ++ t1 := ht1
    rw [ht1', List.append_assoc]

/-- C6 counterexample: a route whose first leg has no start location (one
step of 7200 s, total duration 7200 s) produces a sample sequence whose
first entry sits at offset 7200, not 0. -/
theorem C6_counterexample :
    route_weather_samples
        [Leg.mk none (some (LatLng.mk 1 2)) [RouteStep.mk 7200 (some (LatLng.mk 3 4))]]
        7200 =
      some [((7200 : ℤ), LatLng.mk 1 2, "Destination")] ∧ (7200 : ℤ) ≠ 0 :=
  ⟨rfl, by decide⟩

/-- C6 (amended): whenever the first leg's start location is available with a
truthy (nonzero) latitude, the sample sequence starts with the offset-0
"Start" sample — in particular for a route with zero steps. -/
theorem C6_start_sample (leg0 : Leg) (rest : List Leg) (total_dur : ℤ) (p : LatLng)
    (hstart : leg0.startLocation = some p) (hlat : p.latitude ≠ 0) :
    ∃ tail, route_weather_samples (leg0 :: rest) total_dur =
      some (((0 : ℤ), p, "Start") :: tail) := by
  unfold route_weather_samples
  dsimp only
  rw [hstart]
  dsimp only
  rw [if_pos hlat]
  obtain ⟨t, ht⟩ := foldl_legF_prefix (leg0 :: rest) 0 (-3600) [((0 : ℤ), p, "Start")]
  split
  · rename_i hlast
    rw [List.getLast?_eq_getLast _ (by simp)] at hlast
    cases hlast
  · rename_i lastLeg hlast
    match hend : lastLeg.endLocation with
    | some q =>
      dsimp only
      by_cases hcond : total_dur >
          ((leg0 :: rest).foldl legF ((0 : ℤ), (-3600 : ℤ), [((0 : ℤ), p, "Start")])).2.1 +
            3600 / 2
      · rw [if_pos hcond]
        rw [ht]
        exact ⟨t ++ [(total_dur, q, "Destination")], by simp⟩
      · rw [if_neg hcond]
        rw [ht]
        exact ⟨t, by simp⟩
    | none =>
      dsimp only
      rw [ht]
      exact ⟨t, by simp⟩

/-- C6 witness: a one-leg route with zero steps, start (5,6), end (7,8),
total duration 7200 s. -/
theorem C6_start_sample_witness :
    ∃ tail, route_weather_samples
        [Leg.mk (some (LatLng.mk 5 6)) (some (LatLng.mk 7 8)) []] 7200 =
      some (((0 : ℤ), LatLng.mk 5 6, "Start") :: tail) :=
  C6_start_sample (Leg.mk (some (LatLng.mk 5 6)) (some (LatLng.mk 7 8)) []) [] 7200
    (LatLng.mk 5 6) rfl (by norm_num)

/-- Python `int()` on an exact value: truncation toward zero. -/
def pyInt (q : ℚ) : ℤ := if q < 0 then -(⌊-q⌋) else ⌊q⌋

/-- Python format `f"{s:>w}"`: right-align in width `w`, space padded. -/
def pyPadLeft (w : ℕ) (s : String) : String :=
  String.mk (List.replicate (w - s.length) ' ') ++ s

/-- Python `sep.join(parts)`. -/
def pyJoin (sep : String) : List String → String
  | [] => ""
  | [x] => x
  | x :: y :: xs => x ++ sep ++ pyJoin sep (y :: xs)

/-- utils.py `generate_ascii_chart` (lines 129-164) over exact numeric data.
`none` models the two unreachable-by-default crashes: `height <= 0` makes the
first `grid[height - 1 - y][x]` assignment raise IndexError (the grid has no
rows and the data is non-empty at that point), and `height == 1` makes
`label_step = range_val / (height - 1)` raise ZeroDivisionError.  For
`height ≥ 2` every index is in range (each normalized row lies in
`[0, height-1]`), so the total `List.set`/`getD` writes coincide with the
Python list assignments.  The `width` parameter is accepted and, as in the
source, never used.  `chartLines` is the labeled-row list the function
builds (utils.py 136-160) before appending the axis row. -/
def chartLines (d : ℚ) (ds : List ℚ) (height : ℤ) : List String :=
  let min_val := ds.foldl min d
  let max_val := ds.foldl max d
  let range_val := max_val - min_val
  let range_val := if range_val = 0 then 1 else range_val
  let normalized :=
    (d :: ds).map (fun x => pyInt ((x - min_val) / range_val * ((height : ℚ) - 1)))
  let grid : List (List Char) :=
    List.replicate height.toNat (List.replicate (d :: ds).length ' ')
  let grid := normalized.enum.foldl
    (fun g xy =>
      g.set (height - 1 - xy.2).toNat
        ((g.getD (height - 1 - xy.2).toNat []).set xy.1 '•'))
    grid
  let label_step := range_val / ((height : ℚ) - 1)
  (List.range height.toNat).map
    (fun (y : ℕ) =>
      let val := max_val - (y : ℚ) * label_step
      let label := pyPadLeft 5 (toString (pyInt val)) ++ " |"
      label ++ " " ++ String.mk (grid.getD y []))

def generate_ascii_chart (data : List ℚ) (height : ℤ) (width : ℤ) : Option String :=
  if data = [] then some ""
  else
    match data with
    | [] => some ""
    | d :: ds =>
      if height ≤ 0 then none
      else if height = 1 then none
      else
        some (pyJoin "\n"
          (chartLines d ds height ++
            ["      0 +" ++ String.mk (List.replicate (d :: ds).length '-')]))

/-- Shape of every successful chart: one labeled row per unit of height,
then the axis row whose dash count is the series length. -/
theorem chart_shape (data : List ℚ) (height w : ℤ) (hne : data ≠ []) (hh : 2 ≤ height) :
    ∃ rows, generate_ascii_chart data height w =
      some (pyJoin "\n"
        (rows ++ ["      0 +" ++ String.mk (List.replicate data.length '-')])) ∧
      rows.length = height.toNat := by
  match data with
  | [] => exact absurd rfl hne
  | d :: ds =>
    unfold generate_ascii_chart
    rw [if_neg hne]
    dsimp only
    rw [if_neg (by omega), if_neg (by omega)]
    refine ⟨chartLines d ds height, rfl, ?_⟩
    unfold chartLines
    simp

theorem pyJoin_length_ge (a : String) :
    ∀ (l : List String), a.length ≤ (pyJoin "\n" (l ++ [a])).length := by
  intro l
  induction l with
  | nil => simp [pyJoin]
  | cons x xs ih =>
    have hcons : ∃ y ys, xs ++ [a] = y :: ys := by
      cases xs with
      | nil => exact ⟨a, [], rfl⟩
      | cons z zs => exact ⟨z, zs ++ [a], rfl⟩
    obtain ⟨y, ys, hys⟩ := hcons
    have : pyJoin "\n" ((x :: xs) ++ [a]) = x ++ "\n" ++ pyJoin "\n" (xs ++ [a]) := by
      rw [List.cons_append, hys]
      rfl
    rw [this]
    simp only [String.length_append]
    omega

/-- C9 counterexample: at height 1 with a non-empty series the renderer
fails (`label_step = range_val / (height - 1)` divides by zero), refuting
"does not fail for every height ≥ 1". -/
theorem C9_counterexample :
    generate_ascii_chart [1, 2] 1 60 = none := rfl

/-- C9 (amended): the renderer never fails for an empty series (empty
string) or for height ≥ 2 (exactly `height` labeled rows and one axis row,
with the zero range max==min treated as 1 so that constant series also
render); but at height 1 a non-empty series raises ZeroDivisionError.  In
particular `render([5,5,5], height=3, width=3)` succeeds with 3 labeled rows
plus one axis row. -/
theorem C9_chart_safety (data : List ℚ) (height w : ℤ) :
    (data = [] → generate_ascii_chart data height w = some "") ∧
    (data ≠ [] → 2 ≤ height →
      ∃ rows, generate_ascii_chart data height w =
        some (pyJoin "\n"
          (rows ++ ["      0 +" ++ String.mk (List.replicate data.length '-')])) ∧
        rows.length = height.toNat ∧ generate_ascii_chart data height w ≠ some "") ∧
    (∃ rows, generate_ascii_chart [5, 5, 5] 3 3 =
      some (pyJoin "\n" (rows ++ ["      0 +---"])) ∧ rows.length = 3) := by
  refine ⟨?_, ?_, ?_⟩
  · intro h
    rw [h]
    rfl
  · intro hne hh
    obtain ⟨rows, heq, hlen⟩ := chart_shape data height w hne hh
    refine ⟨rows, heq, hlen, ?_⟩
    rw [heq]
    intro hcontra
    rw [Option.some.injEq] at hcontra
    have hge := pyJoin_length_ge
      ("      0 +" ++ String.mk (List.replicate data.length '-')) rows
    rw [hcontra] at hge
    have hax : ("      0 +" ++ String.mk (List.replicate data.length '-')).length =
        9 + data.length := by
      have h9 : ("      0 +" : String).length = 9 := rfl
      rw [String.length_append, h9, String.length_mk, List.length_replicate]
    have hemp : ("" : String).length = 0 := rfl
    rw [hax, hemp] at hge
    omega
  · obtain ⟨rows, heq, hlen⟩ := chart_shape [5, 5, 5] 3 3 (by simp) (by norm_num)
    refine ⟨rows, ?_, by simpa using hlen⟩
    rw [heq]
    rfl

/-- C10: the chart never depends on its `width` argument (the parameter is
bound and never read), and the horizontal extent — the axis row's dash
count — is the length of the series. -/
theorem C10_width_independent (data : List ℚ) (height w1 w2 : ℤ) :
    generate_ascii_chart data height w1 = generate_ascii_chart data height w2 ∧
    (data ≠ [] → 2 ≤ height →
      ∃ rows, generate_ascii_chart data height w1 =
        some (pyJoin "\n"
          (rows ++ ["      0 +" ++ String.mk (List.replicate data.length '-')])) ∧
        rows.length = height.toNat) :=
  ⟨rfl, fun hne hh => chart_shape data height w1 hne hh⟩

end Roam
